import Mathlib

/-!
A Lean 4 model of the `openrits` Django application (`openrits/models.py`),
used to verify the behaviour of its two algorithmic components:

* the materialized-path category tree (`ItemCategory.Manager`:
  `filter_descendants`, `filter_ancestors`, `update_parent`) together with
  the property-inheritance queries built on it
  (`ItemCategoryProperty.Manager.filter_relevant_for`,
  `ItemPropertyValue.Manager.filter_relevant_for` / `filter_obsolete_for`);
* the sweep-line availability computation
  (`Item.Manager.get_available_amount`).

Modelling conventions:

* Database text (the `lineage` column, `PropertyValue.value`) is modelled as
  `List Char`; Python `str(pk)` of a primary key is modelled by `natStr`, a
  decimal rendering.
* A table is a `List` of row structures, in insertion (rowid) order.  A
  Django `QuerySet` produced by `filter` with no `order_by` is modelled as a
  `List.filter` over the table: the backing database returns the matching
  rows in table order.
* SQL functions used by `update_parent` are modelled directly:
  `StrIndex` (1-based first occurrence, 0 when absent) by `strIndex`,
  `Substr(s, pos)` (1-based suffix) by `List.drop (pos - 1)`, `Concat` by
  `++`, `contains` by `List.IsInfix`.
* `raise ValueError` is modelled by returning `Except.error`;
  an `AttributeError` from dereferencing a null foreign key is modelled by
  `Option` with `none`.
* Python's `sorted` (a stable sort) is modelled by `List.insertionSort`,
  which is also stable; stability of the tie order is proved where needed
  (`filter_key_insertionSort`).
-/

namespace Openrits

/-! ### Decimal rendering of primary keys (`str(pk)`) -/

/-- Decimal digits of `n`, most significant first, computed with `fuel ≥ n`.
`natStrAux fuel 0 = []`. -/
def natStrAux : Nat → Nat → List Char
  | 0, _ => []
  | _ + 1, 0 => []
  | fuel + 1, n + 1 =>
      natStrAux fuel ((n + 1) / 10) ++ [Nat.digitChar ((n + 1) % 10)]

/-- The decimal rendering of a natural number, Python's `str(n)` for `n ≥ 0`. -/
def natStr (n : Nat) : List Char :=
  if n = 0 then ['0'] else natStrAux n n

/-! ### The lineage encoding `",id1,id2,...,idN,"` -/

/-- The tail of a lineage string: `"id1,id2,...,idN,"` (empty for `[]`). -/
def linTail : List Nat → List Char
  | [] => []
  | a :: L => natStr a ++ ',' :: linTail L

/-- The lineage string of an ancestor id list: `",id1,id2,...,idN,"`,
`","` for the empty list (the format of `ItemCategory.lineage`). -/
def lin (L : List Nat) : List Char := ',' :: linTail L

/-- The search pattern `f",{pk},"` used by the queryset filters. -/
def searchStr (x : Nat) : List Char := ',' :: (natStr x ++ [','])

/-! ### `StrIndex` and `Substr` -/

/-- Model of SQL `StrIndex(s, sub)` scanning from 1-based position `k`. -/
def strIndexAux (sub : List Char) : List Char → Nat → Nat
  | [], k => if sub <+: ([] : List Char) then k else 0
  | c :: t, k => if sub <+: (c :: t) then k else strIndexAux sub t (k + 1)

/-- Model of SQL `StrIndex(s, sub)`: 1-based position of the first occurrence
of `sub` in `s`, `0` when `sub` does not occur. -/
def strIndex (s sub : List Char) : Nat := strIndexAux sub s 1


/-! ### The category tree (`ItemCategory` and its manager) -/

/-- A row of the `ItemCategory` table. -/
structure ItemCategory where
  id : Nat
  parent : Option Nat
  lineage : List Char
deriving DecidableEq, Repr

/-- Default row used with `List.getD` indexing. -/
def dfltCat : ItemCategory := ⟨0, none, []⟩

/-- `ItemCategory.Manager.filter_descendants`:
`self.filter(lineage__contains=f",{category.pk},")`. -/
def filter_descendants (table : List ItemCategory) (category : ItemCategory) :
    List ItemCategory :=
  table.filter (fun row => decide (searchStr category.id <:+: row.lineage))

/-- `ItemCategory.Manager.filter_ancestors`: rows whose `","+id+","` occurs in
`category.lineage`. -/
def filter_ancestors (table : List ItemCategory) (category : ItemCategory) :
    List ItemCategory :=
  table.filter (fun row => decide (searchStr row.id <:+: category.lineage))

/-- The mutation part of `ItemCategory.Manager.update_parent` (lines 105-118):
first `self.filter(pk=category.pk).update(parent=..., lineage=new_lineage)`,
then the descendant rewrite
`self.filter_descendants(category).update(lineage=Concat(descendantsLineage,
Substr(lineage, StrIndex(lineage, searchStr) + len(searchStr))))`. -/
def applyReparent (table : List ItemCategory) (category : ItemCategory)
    (new_parent_id : Option Nat) (new_lineage : List Char) : List ItemCategory :=
  let t1 := table.map (fun row =>
    if row.id = category.id then
      { row with parent := new_parent_id, lineage := new_lineage }
    else row)
  let descendantsLineage := new_lineage ++ natStr category.id ++ [',']
  let searchS := searchStr category.id
  t1.map (fun row =>
    if searchS <:+: row.lineage then
      { row with lineage := descendantsLineage ++
          row.lineage.drop (strIndex row.lineage searchS + searchS.length - 1) }
    else row)

/-- The `newLineage` computed by `update_parent` for a given new parent. -/
def new_lineage_of : Option ItemCategory → List Char
  | none => [',']
  | some p => p.lineage ++ natStr p.id ++ [',']

deriving instance DecidableEq for Except

/-- `ItemCategory.Manager.update_parent`.  `raise ValueError` is modelled by
`Except.error` (returned before any row is mutated, as in the source where
the checks precede both `update` calls). -/
def update_parent (table : List ItemCategory) (category : ItemCategory)
    (new_parent : Option ItemCategory) : Except String (List ItemCategory) :=
  match new_parent with
  | none => .ok (applyReparent table category none [','])
  | some p =>
    if p.id = category.id then
      .error "Category can not reference itself as its parent."
    else if (filter_descendants table category).filter
        (fun row => decide (row.id = p.id)) ≠ [] then
      .error "New category parent must not be its descendant."
    else
      .ok (applyReparent table category (some p.id)
        (p.lineage ++ natStr p.id ++ [',']))

/-- The lineage invariants of the category table, certified by a list `toks`
giving each row's ancestor-id list: primary keys are unique, each row's
lineage is the encoding of its (duplicate-free) ancestor list, no row lists
itself as an ancestor, and every prefix of an ancestor list is realised by
a row of the table (spec section 3, invariants (a)-(d)). -/
def TreeInv (table : List ItemCategory) (toks : List (List Nat)) : Prop :=
  (table.map (fun r => r.id)).Nodup ∧
  table.length = toks.length ∧
  ∀ i < table.length,
    (table.getD i dfltCat).lineage = lin (toks.getD i []) ∧
    (toks.getD i []).Nodup ∧
    (table.getD i dfltCat).id ∉ toks.getD i [] ∧
    ∀ k < (toks.getD i []).length,
      ∃ j < table.length,
        (table.getD j dfltCat).id = (toks.getD i []).getD k 0 ∧
        (table.getD j dfltCat).lineage = lin ((toks.getD i []).take k)

instance decTreeInv (table : List ItemCategory) (toks : List (List Nat)) :
    Decidable (TreeInv table toks) := by
  unfold TreeInv
  exact inferInstance

/-! ### Property definitions and values -/

/-- A row of the `ItemCategoryProperty` table (a `PropertyDefinition` owned
by a category; `category` is the foreign-key id). -/
structure ItemCategoryProperty where
  id : Nat
  name : String
  property_type : String
  category : Nat
deriving DecidableEq, Repr

/-- `ItemCategoryProperty.Manager.filter_relevant_for`: properties whose
`","+category_id+","` occurs in `category.lineage + str(category.pk) + ","`. -/
def icp_filter_relevant_for (props : List ItemCategoryProperty)
    (category : ItemCategory) : List ItemCategoryProperty :=
  props.filter (fun p =>
    decide (searchStr p.category <:+:
      (category.lineage ++ natStr category.id ++ [','])))

/-- A row of the `Item` table.  `category` holds the referenced
`ItemCategory` object, or `none` for a null foreign key (`SET_NULL`). -/
structure Item where
  id : Nat
  name : String
  amount : Int
  archived : Bool
  category : Option ItemCategory
deriving DecidableEq, Repr

/-- A row of the `ItemPropertyValue` table (`item` and `property` are
foreign-key ids). -/
structure ItemPropertyValue where
  id : Nat
  value : List Char
  item : Nat
  property : Nat
deriving DecidableEq, Repr

/-- `ItemPropertyValue.Manager.filter_relevant_for`.  Accessing
`item.category.lineage` on a null category raises `AttributeError` in the
source; this is modelled by `none`. -/
def ipv_filter_relevant_for (values : List ItemPropertyValue)
    (props : List ItemCategoryProperty) (item : Item) :
    Option (List ItemPropertyValue) :=
  match item.category with
  | none => none
  | some cat =>
    let defined_properties := icp_filter_relevant_for props cat
    some ((values.filter (fun v => decide (v.item = item.id))).filter
      (fun v => defined_properties.any (fun p => decide (p.id = v.property))))

/-- `ItemPropertyValue.Manager.filter_obsolete_for`: same base query with
`exclude` in place of the final `filter`. -/
def ipv_filter_obsolete_for (values : List ItemPropertyValue)
    (props : List ItemCategoryProperty) (item : Item) :
    Option (List ItemPropertyValue) :=
  match item.category with
  | none => none
  | some cat =>
    let defined_properties := icp_filter_relevant_for props cat
    some ((values.filter (fun v => decide (v.item = item.id))).filter
      (fun v => !(defined_properties.any (fun p => decide (p.id = v.property)))))

/-! ### The availability sweep (`Item.Manager.get_available_amount`) -/

/-- A row of the `Rent` table; `end_` models the `end` column (a Lean
keyword).  Columns not read by `get_available_amount` (customer, created,
issued, returned) are omitted. -/
structure Rent where
  id : Nat
  start : Int
  end_ : Int
deriving DecidableEq, Repr

/-- A row of the `RentItem` table (`item` and `rent` are foreign-key ids). -/
structure RentItem where
  amount : Int
  item : Nat
  rent : Nat
deriving DecidableEq, Repr

/-- The comparison used by `sorted(points_of_interest, key=lambda e: e[0])`. -/
def poiLE (a b : Int × Int) : Prop := a.1 ≤ b.1

instance : DecidableRel poiLE :=
  fun a b => inferInstanceAs (Decidable (a.1 ≤ b.1))

instance : IsTotal (Int × Int) poiLE :=
  ⟨fun a b => Int.le_total a.1 b.1⟩

instance : IsTrans (Int × Int) poiLE :=
  ⟨fun _ _ _ hab hbc => le_trans hab hbc⟩

/-- One iteration of the sweep loop:
`storage_amount -= poi[1]; min_amount = min(min_amount, storage_amount)`. -/
def sweepStep (st : Int × Int) (poi : Int × Int) : Int × Int :=
  (st.1 - poi.2, min st.2 (st.1 - poi.2))

/-- The annotation `amount=Sum(F("rentitem__amount"),
filter=Q(rentitem__item=item))` of a colliding rent. -/
def rentAmountFor (rentItems : List RentItem) (item : Item) (r : Rent) : Int :=
  ((rentItems.filter (fun ri => decide (ri.rent = r.id ∧ ri.item = item.id))).map
    (fun ri => ri.amount)).sum

/-- `Rent.objects.filter(start__lte=end, end__gte=start)
.filter(rentitem__item=item).annotate(amount=...)`: the rents overlapping the
window that have a `RentItem` row for `item`, each with its annotated total.
(The `unique_item_rent` constraint makes the join produce each rent once.) -/
def coliding_rents_for (rents : List Rent) (rentItems : List RentItem)
    (item : Item) (start end_ : Int) : List (Rent × Int) :=
  (rents.filter (fun r =>
      decide (r.start ≤ end_ ∧ start ≤ r.end_) &&
      rentItems.any (fun ri => decide (ri.rent = r.id ∧ ri.item = item.id)))).map
    (fun r => (r, rentAmountFor rentItems item r))

/-- The two events a rent contributes to `points_of_interest`:
`(rent.start, rent.amount)` then `(rent.end, -rent.amount)`. -/
def eventBlock (ra : Rent × Int) : List (Int × Int) :=
  [(ra.1.start, ra.2), (ra.1.end_, -ra.2)]

/-- The event list built by the loop over `coliding_rents`: per rent,
`(start, amount)` then `(end, -amount)`, in fetch order. -/
def points_of_interest_of (coliding : List (Rent × Int)) : List (Int × Int) :=
  (coliding.map eventBlock).flatten

/-- `Item.Manager.get_available_amount`.  Python's stable `sorted` is
modelled by the (also stable) `List.insertionSort`. -/
def get_available_amount (rents : List Rent) (rentItems : List RentItem)
    (item : Item) (start end_ : Int) : Int :=
  if item.amount ≤ 0 then 0
  else if coliding_rents_for rents rentItems item start end_ = [] then
    item.amount
  else
    ((List.insertionSort poiLE
        (points_of_interest_of
          (coliding_rents_for rents rentItems item start end_))).foldl
      sweepStep (item.amount, item.amount)).2

/-- Sum of the deltas (second components) of an event list. -/
def sumD (l : List (Int × Int)) : Int := (l.map (fun e => e.2)).sum

/-! ### Typed (de)serialization of `PropertyValue` -/

/-- A Python scalar of one of the five supported kinds.  A float is modelled
by its decimal text form: integral part and fraction digits (`0.5` is
`pyFloat 0 [5]`). -/
inductive PyVal where
  | pyInt : Int → PyVal
  | pyFloat : Int → List Nat → PyVal
  | pyBool : Bool → PyVal
  | pyText : List Char → PyVal
  | pyDate : Nat → Nat → Nat → PyVal
deriving DecidableEq, Repr

/-- Python `str` of an int. -/
def intStr (i : Int) : List Char :=
  if i < 0 then '-' :: natStr i.natAbs else natStr i.natAbs

/-- Fraction digits as text; Python always prints at least one (`"1.0"`). -/
def fracStr (ds : List Nat) : List Char :=
  if ds = [] then ['0'] else ds.map Nat.digitChar

/-- Zero-padded decimal rendering (dates print as `YYYY-MM-DD`). -/
def padZeros (w : Nat) (n : Nat) : List Char :=
  List.replicate (w - (natStr n).length) '0' ++ natStr n

/-- Python `str(object)` for the supported scalar kinds, as written to
`PropertyValue.value` by `serialize`. -/
def pyStrOf : PyVal → List Char
  | .pyInt i => intStr i
  | .pyFloat ip fr => intStr ip ++ '.' :: fracStr fr
  | .pyBool b => if b then "True".data else "False".data
  | .pyText s => s
  | .pyDate y m d => padZeros 4 y ++ '-' :: (padZeros 2 m ++ '-' :: padZeros 2 d)

/-- Value of a decimal digit character. -/
def digitValOf (c : Char) : Option Nat :=
  if '0' ≤ c ∧ c ≤ '9' then some (c.toNat - '0'.toNat) else none

/-- Decimal parse of a digit string (`int(s)` for unsigned input). -/
def parseNatOf (s : List Char) : Option Nat :=
  if s = [] then none
  else s.foldlM (fun acc c => (digitValOf c).map (fun d => acc * 10 + d)) 0

/-- `IntegerField().to_python`, i.e. Python `int(value)`. -/
def parseIntOf (s : List Char) : Option Int :=
  match s with
  | '-' :: rest => (parseNatOf rest).map (fun n => -(n : Int))
  | '+' :: rest => (parseNatOf rest).map (fun n => (n : Int))
  | _ => (parseNatOf s).map (fun n => (n : Int))

/-- `FloatField().to_python` on the decimal forms produced by `str(float)`. -/
def parseFloatOf (s : List Char) : Option PyVal :=
  match s.splitOn '.' with
  | [ipart, fpart] =>
    match parseIntOf ipart, fpart.mapM digitValOf with
    | some ip, some fr => some (.pyFloat ip fr)
    | _, _ => none
  | _ => none

def isLeap (y : Nat) : Bool :=
  (y % 4 == 0 && y % 100 != 0) || y % 400 == 0

def daysInMonth (y m : Nat) : Nat :=
  if m = 2 then (if isLeap y then 29 else 28)
  else if m = 4 ∨ m = 6 ∨ m = 9 ∨ m = 11 then 30
  else 31

/-- `DateField().to_python`: `django.utils.dateparse.parse_date` followed by
`datetime.date` validation. -/
def parseDateOf (s : List Char) : Option PyVal :=
  match s.splitOn '-' with
  | [ys, ms, ds] =>
    match parseNatOf ys, parseNatOf ms, parseNatOf ds with
    | some y, some mo, some d =>
      if 1 ≤ y ∧ y ≤ 9999 ∧ 1 ≤ mo ∧ mo ≤ 12 ∧ 1 ≤ d ∧ d ≤ daysInMonth y mo
      then some (.pyDate y mo d) else none
    | _, _, _ => none
  | _ => none

/-- `BooleanField().to_python` restricted to text input. -/
def parseBoolOf (s : List Char) : Option PyVal :=
  if s = "t".data ∨ s = "True".data ∨ s = "1".data then some (.pyBool true)
  else if s = "f".data ∨ s = "False".data ∨ s = "0".data then
    some (.pyBool false)
  else none

/-- `PropertyValue.TYPE_DICT[property_type]().to_python(value)`: dispatch on
the declared kind; an unsupported kind (a `KeyError` in the source) and a
failed parse (`ValidationError`) are both `none`. -/
def to_python (property_type : String) (s : List Char) : Option PyVal :=
  if property_type = "IntegerField" then (parseIntOf s).map PyVal.pyInt
  else if property_type = "FloatField" then parseFloatOf s
  else if property_type = "BooleanField" then parseBoolOf s
  else if property_type = "TextField" then some (.pyText s)
  else if property_type = "DateField" then parseDateOf s
  else none

/-- The `value` column of a `PropertyValue` row. -/
structure PropertyValue where
  value : List Char
deriving DecidableEq, Repr

/-- `PropertyValue.serialize`: `self.value = str(object)` — the declared
kind is not consulted. -/
def PropertyValue.serialize (pv : PropertyValue) (object : PyVal) :
    PropertyValue :=
  { pv with value := pyStrOf object }

/-- `PropertyValue.deserialize`, with `getPropertyType()` supplied as the
`property_type` argument. -/
def PropertyValue.deserialize (property_type : String) (pv : PropertyValue) :
    Option PyVal :=
  to_python property_type pv.value

/-- The `property_type` name a value's kind corresponds to. -/
def kindOf : PyVal → String
  | .pyInt _ => "IntegerField"
  | .pyFloat _ _ => "FloatField"
  | .pyBool _ => "BooleanField"
  | .pyText _ => "TextField"
  | .pyDate _ _ _ => "DateField"

/-! ### Lemmas -/

lemma digitChar_ne_comma : ∀ d, d < 10 → Nat.digitChar d ≠ ',' := by decide

lemma digitChar_inj_lt : ∀ a, a < 10 → ∀ b, b < 10 →
    Nat.digitChar a = Nat.digitChar b → a = b := by decide

lemma natStrAux_ne_nil : ∀ fuel n, 0 < n → n ≤ fuel → natStrAux fuel n ≠ [] := by
  intro fuel n hn hf
  cases fuel with
  | zero => omega
  | succ f =>
    cases n with
    | zero => omega
    | succ m => simp [natStrAux]

lemma natStrAux_digits : ∀ fuel n c, c ∈ natStrAux fuel n →
    ∃ d, d < 10 ∧ c = Nat.digitChar d := by
  intro fuel
  induction fuel with
  | zero => intro n c hc; simp [natStrAux] at hc
  | succ f ih =>
    intro n c hc
    cases n with
    | zero => simp [natStrAux] at hc
    | succ m =>
      rw [natStrAux] at hc
      rcases List.mem_append.mp hc with h | h
      · exact ih _ _ h
      · refine ⟨(m + 1) % 10, Nat.mod_lt _ (by norm_num), ?_⟩
        simpa using h

lemma natStr_mem_ne_comma {n : Nat} : ∀ c ∈ natStr n, c ≠ ',' := by
  intro c hc
  unfold natStr at hc
  split at hc
  · simp at hc
    subst hc
    decide
  · obtain ⟨d, hd, rfl⟩ := natStrAux_digits _ _ _ hc
    exact digitChar_ne_comma d hd

lemma natStr_ne_nil {n : Nat} : natStr n ≠ [] := by
  unfold natStr
  split
  · simp
  · exact natStrAux_ne_nil n n (by omega) le_rfl

lemma natStr_length_pos {n : Nat} : 0 < (natStr n).length :=
  List.length_pos.mpr natStr_ne_nil

lemma natStrAux_inj : ∀ m n fm fn, 0 < m → 0 < n → m ≤ fm → n ≤ fn →
    natStrAux fm m = natStrAux fn n → m = n := by
  intro m
  induction m using Nat.strong_induction_on with
  | _ m ih =>
    intro n fm fn hm hn hmf hnf heq
    obtain ⟨m', rfl⟩ : ∃ k, m = k + 1 := ⟨m - 1, by omega⟩
    obtain ⟨n', rfl⟩ : ∃ k, n = k + 1 := ⟨n - 1, by omega⟩
    obtain ⟨fm', rfl⟩ : ∃ f, fm = f + 1 := ⟨fm - 1, by omega⟩
    obtain ⟨fn', rfl⟩ : ∃ f, fn = f + 1 := ⟨fn - 1, by omega⟩
    rw [natStrAux, natStrAux] at heq
    have hlen : (natStrAux fm' ((m' + 1) / 10)).length
        = (natStrAux fn' ((n' + 1) / 10)).length := by
      have := congrArg List.length heq
      simp at this
      omega
    obtain ⟨h1, h2⟩ := List.append_inj heq hlen
    have hmod : (m' + 1) % 10 = (n' + 1) % 10 := by
      have hc : Nat.digitChar ((m' + 1) % 10) = Nat.digitChar ((n' + 1) % 10) := by
        simpa using h2
      exact digitChar_inj_lt _ (Nat.mod_lt _ (by norm_num)) _
        (Nat.mod_lt _ (by norm_num)) hc
    by_cases hq : (m' + 1) / 10 = 0
    · by_cases hq' : (n' + 1) / 10 = 0
      · omega
      · exfalso
        have hnil : natStrAux fm' ((m' + 1) / 10) = [] := by
          rw [hq]; cases fm' <;> simp [natStrAux]
        rw [hnil] at h1
        exact natStrAux_ne_nil fn' ((n' + 1) / 10) (by omega) (by omega) h1.symm
    · by_cases hq' : (n' + 1) / 10 = 0
      · exfalso
        have hnil : natStrAux fn' ((n' + 1) / 10) = [] := by
          rw [hq']; cases fn' <;> simp [natStrAux]
        rw [hnil] at h1
        exact natStrAux_ne_nil fm' ((m' + 1) / 10) (by omega) (by omega) h1
      · have := ih ((m' + 1) / 10) (by omega) ((n' + 1) / 10) fm' fn'
            (by omega) (by omega) (by omega) (by omega) h1
        omega

lemma natStr_eq_zero_char {n : Nat} (h : natStr n = ['0']) : n = 0 := by
  by_contra hn
  unfold natStr at h
  rw [if_neg hn] at h
  obtain ⟨n', rfl⟩ : ∃ k, n = k + 1 := ⟨n - 1, by omega⟩
  rw [natStrAux] at h
  cases hA : natStrAux n' ((n' + 1) / 10) with
  | nil =>
    rw [hA] at h
    simp at h
    have hmod : (n' + 1) % 10 = 0 := by
      have h0 : Nat.digitChar ((n' + 1) % 10) = Nat.digitChar 0 := by
        simpa using h
      exact digitChar_inj_lt _ (Nat.mod_lt _ (by norm_num)) _ (by norm_num) h0
    have hdiv : (n' + 1) / 10 = 0 := by
      by_contra hq
      exact natStrAux_ne_nil n' ((n' + 1) / 10) (by omega) (by omega) hA
    omega
  | cons c A' =>
    rw [hA] at h
    have := congrArg List.length h
    simp at this

lemma natStr_inj {m n : Nat} (h : natStr m = natStr n) : m = n := by
  by_cases hm : m = 0 <;> by_cases hn : n = 0
  · omega
  · exfalso
    rw [show natStr m = ['0'] by rw [hm]; rfl] at h
    exact hn (natStr_eq_zero_char h.symm)
  · exfalso
    rw [show natStr n = ['0'] by rw [hn]; rfl] at h
    exact hm (natStr_eq_zero_char h)
  · unfold natStr at h
    rw [if_neg hm, if_neg hn] at h
    exact natStrAux_inj m n m n (by omega) (by omega) le_rfl le_rfl h

lemma linTail_append (L1 L2 : List Nat) :
    linTail (L1 ++ L2) = linTail L1 ++ linTail L2 := by
  induction L1 with
  | nil => simp [linTail]
  | cons a L ih => simp [linTail, ih]

lemma lin_cons (a : Nat) (L : List Nat) :
    lin (a :: L) = ',' :: (natStr a ++ lin L) := by
  simp [lin, linTail]

lemma lin_snoc (L : List Nat) (x : Nat) :
    lin (L ++ [x]) = lin L ++ natStr x ++ [','] := by
  simp [lin, linTail_append, linTail]

lemma lin_split (L1 : List Nat) (x : Nat) (L2 : List Nat) :
    lin (L1 ++ x :: L2) = lin L1 ++ natStr x ++ ',' :: linTail L2 := by
  simp [lin, linTail_append, linTail]

lemma lin_length (L : List Nat) : (lin L).length = (linTail L).length + 1 := by
  simp [lin]

lemma searchStr_length (x : Nat) :
    (searchStr x).length = (natStr x).length + 2 := by
  simp [searchStr]

/-- Every lineage string ends in a comma. -/
lemma lin_eq_snoc_comma : ∀ L : List Nat,
    ∃ B, lin L = B ++ [','] ∧ B.length = (linTail L).length := by
  intro L
  induction L with
  | nil => exact ⟨[], rfl, rfl⟩
  | cons a L ih =>
    obtain ⟨B, hB, hlen⟩ := ih
    refine ⟨',' :: (natStr a ++ B), ?_, ?_⟩
    · rw [lin_cons, hB]
      simp
    · simp [linTail, hlen]
      omega

/-- Tokens of equal-token shape: if `u ++ ","` is a prefix of `v ++ w`, `u`
and `v` are comma-free, and `w` starts with a comma, then `u = v`. -/
lemma token_prefix_eq : ∀ (u v w : List Char), (∀ c ∈ u, c ≠ ',') →
    (∀ c ∈ v, c ≠ ',') → (∃ w', w = ',' :: w') →
    u ++ [','] <+: v ++ w → u = v := by
  intro u
  induction u with
  | nil =>
    intro v w _ hv hw h
    cases v with
    | nil => rfl
    | cons b v' =>
      exfalso
      rw [List.nil_append, List.cons_append] at h
      obtain ⟨hb, -⟩ := (List.cons_prefix_cons).mp h
      exact hv b (by simp) hb.symm
  | cons c u' ih =>
    intro v w hu hv hw h
    cases v with
    | nil =>
      exfalso
      obtain ⟨w', rfl⟩ := hw
      rw [List.cons_append, List.nil_append] at h
      obtain ⟨hc, -⟩ := (List.cons_prefix_cons).mp h
      exact hu c (by simp) hc
    | cons b v' =>
      rw [List.cons_append, List.cons_append] at h
      obtain ⟨hc, h'⟩ := (List.cons_prefix_cons).mp h
      have := ih v' w (fun x hx => hu x (by simp [hx]))
        (fun x hx => hv x (by simp [hx])) hw h'
      rw [hc, this]

/-- Occurrences of `",x,"` in a well-formed lineage string always align with
a full token: if `",x,"` is a prefix of `(lin L).drop p`, then `x` is the
`k`-th id of `L` and `p` is the offset of the comma preceding that token. -/
lemma searchStr_prefix_drop {L : List Nat} {x p : Nat}
    (h : searchStr x <+: (lin L).drop p) :
    ∃ k, ∃ hk : k < L.length,
      L.get ⟨k, hk⟩ = x ∧ p = (linTail (L.take k)).length := by
  induction L generalizing p with
  | nil =>
    exfalso
    have hlen := h.length_le
    have h3 : 3 ≤ (searchStr x).length := by
      rw [searchStr_length]
      have := natStr_length_pos (n := x)
      omega
    have : ((lin []).drop p).length ≤ 1 := by
      simp [lin, linTail]
    omega
  | cons a L' ih =>
    cases p with
    | zero =>
      rw [List.drop_zero, lin_cons] at h
      rw [searchStr] at h
      obtain ⟨-, h'⟩ := (List.cons_prefix_cons).mp h
      have htok : natStr x = natStr a :=
        token_prefix_eq (natStr x) (natStr a) (lin L')
          (fun c hc => natStr_mem_ne_comma c hc)
          (fun c hc => natStr_mem_ne_comma c hc)
          ⟨linTail L', rfl⟩ h'
      refine ⟨0, by simp, ?_, by simp [linTail]⟩
      simpa using (natStr_inj htok).symm
    | succ p' =>
      rw [lin_cons, List.drop_succ_cons] at h
      by_cases hlt : p' < (natStr a).length
      · exfalso
        rw [List.drop_append_of_le_length (le_of_lt hlt)] at h
        rw [List.drop_eq_getElem_cons hlt] at h
        rw [searchStr] at h
        obtain ⟨hc, -⟩ := (List.cons_prefix_cons).mp h
        exact natStr_mem_ne_comma _ (List.getElem_mem hlt) hc.symm
      · push_neg at hlt
        have hp : p' = (natStr a).length + (p' - (natStr a).length) := by omega
        rw [hp, List.drop_append] at h
        obtain ⟨k, hk, hx, hoff⟩ := ih h
        refine ⟨k + 1, by simpa using Nat.succ_lt_succ hk, by simpa using hx, ?_⟩
        simp [linTail]
        omega

/-- Converse: the `k`-th token of a lineage gives an occurrence of its
search pattern at the offset of the preceding comma. -/
lemma searchStr_prefix_drop_of_get {L : List Nat} {k : Nat} (hk : k < L.length) :
    searchStr (L.get ⟨k, hk⟩) <+: (lin L).drop (linTail (L.take k)).length := by
  have hL : L = L.take k ++ L.get ⟨k, hk⟩ :: L.drop (k + 1) := by
    rw [List.get_eq_getElem]
    conv_lhs => rw [← List.take_append_drop k L, List.drop_eq_getElem_cons hk]
  obtain ⟨B, hB, hBlen⟩ := lin_eq_snoc_comma (L.take k)
  have hlin : lin L = B ++ (searchStr (L.get ⟨k, hk⟩) ++ linTail (L.drop (k + 1))) := by
    conv_lhs => rw [hL]
    rw [lin_split, hB]
    simp [searchStr]
  rw [hlin, ← hBlen, List.drop_left]
  exact ⟨linTail (L.drop (k + 1)), rfl⟩

/-- Substring membership of `",x,"` in a lineage string is exactly membership
of `x` in the id list. -/
lemma searchStr_infix_iff {L : List Nat} {x : Nat} :
    searchStr x <:+: lin L ↔ x ∈ L := by
  constructor
  · rintro ⟨s, t, hst⟩
    have hpre : searchStr x <+: (lin L).drop s.length := by
      rw [← hst]
      rw [show s ++ searchStr x ++ t = s ++ (searchStr x ++ t) by simp]
      rw [List.drop_left]
      exact ⟨t, rfl⟩
    obtain ⟨k, hk, hx, -⟩ := searchStr_prefix_drop hpre
    rw [← hx]
    exact List.get_mem L k hk
  · intro hx
    obtain ⟨⟨k, hk⟩, rfl⟩ := List.mem_iff_get.mp hx
    obtain ⟨t, ht⟩ := searchStr_prefix_drop_of_get hk
    refine ⟨(lin L).take (linTail (L.take k)).length, t, ?_⟩
    conv_rhs => rw [← List.take_append_drop (linTail (L.take k)).length (lin L), ← ht]
    simp

lemma strIndexAux_eq {sub : List Char} : ∀ (q : Nat) (s : List Char) (k : Nat),
    sub <+: s.drop q → (∀ j < q, ¬ sub <+: s.drop j) →
    strIndexAux sub s k = k + q := by
  intro q
  induction q with
  | zero =>
    intro s k hq _
    rw [List.drop_zero] at hq
    cases s with
    | nil => simp [strIndexAux, hq]
    | cons c t => simp [strIndexAux, hq]
  | succ q' ih =>
    intro s k hq hmin
    have h0 : ¬ sub <+: s := by
      have := hmin 0 (by omega)
      simpa using this
    cases s with
    | nil =>
      exfalso
      exact h0 (by simpa using hq)
    | cons c t =>
      rw [strIndexAux, if_neg h0]
      have hq' : sub <+: t.drop q' := by simpa using hq
      have hmin' : ∀ j < q', ¬ sub <+: t.drop j := by
        intro j hj
        have := hmin (j + 1) (by omega)
        simpa using this
      rw [ih t (k + 1) hq' hmin']
      omega

/-- In a duplicate-free lineage, `StrIndex` finds `",x,"` exactly at the
comma that precedes the unique token `x`. -/
lemma strIndex_lineage {L : List Nat} {x : Nat} (hnd : L.Nodup) {k : Nat}
    (hk : k < L.length) (hx : L.get ⟨k, hk⟩ = x) :
    strIndex (lin L) (searchStr x) = (linTail (L.take k)).length + 1 := by
  have hocc : searchStr x <+: (lin L).drop (linTail (L.take k)).length := by
    rw [← hx]
    exact searchStr_prefix_drop_of_get hk
  have hmin : ∀ j < (linTail (L.take k)).length, ¬ searchStr x <+: (lin L).drop j := by
    intro j hj hpre
    obtain ⟨k', hk', hx', hoff⟩ := searchStr_prefix_drop hpre
    have hfin : (⟨k', hk'⟩ : Fin L.length) = ⟨k, hk⟩ :=
      hnd.get_inj_iff.mp (hx'.trans hx.symm)
    have hkk : k' = k := by
      simpa using congrArg Fin.val hfin
    rw [hkk] at hoff
    omega
  rw [strIndex, strIndexAux_eq _ _ _ hocc hmin]
  omega


/-! ### Id injectivity on a table with unique primary keys -/

lemma table_id_inj {table : List ItemCategory}
    (hnd : (table.map (fun r => r.id)).Nodup) {a b : ItemCategory}
    (ha : a ∈ table) (hb : b ∈ table) (h : a.id = b.id) : a = b :=
  List.inj_on_of_nodup_map hnd ha hb h

/-! ### Claim C2: cycle errors of `update_parent` -/

/-- Claim C2: `reparent(C, P)` fails with the cycle `ValueError` exactly when
`P` is `C` itself or `P` is a descendant of `C`; for every other choice of
`P`, including `P = none`, no error is raised.  On an error the function
returns before either `update` runs, so the table is left unchanged (the
embedding returns no mutated table on `Except.error`). -/
theorem update_parent_cycle_error_iff (table : List ItemCategory)
    (category : ItemCategory) (new_parent : Option ItemCategory)
    (hnd : (table.map (fun r => r.id)).Nodup) (hcat : category ∈ table)
    (hpar : ∀ p, new_parent = some p → p ∈ table) :
    (∃ e, update_parent table category new_parent = .error e) ↔
      ∃ p, new_parent = some p ∧
        (p = category ∨ p ∈ filter_descendants table category) := by
  cases new_parent with
  | none => simp [update_parent]
  | some p =>
    have hp := hpar p rfl
    constructor
    · rintro ⟨e, he⟩
      refine ⟨p, rfl, ?_⟩
      rw [update_parent] at he
      by_cases h1 : p.id = category.id
      · exact Or.inl (table_id_inj hnd hp hcat h1)
      · rw [if_neg h1] at he
        by_cases h2 : (filter_descendants table category).filter
            (fun row => decide (row.id = p.id)) ≠ []
        · obtain ⟨d, hd⟩ := List.exists_mem_of_ne_nil _ h2
          have hd1 := List.mem_filter.mp hd
          have hdid : d.id = p.id := by simpa using hd1.2
          have hdt : d ∈ table := (List.mem_filter.mp hd1.1).1
          have hdp : d = p := table_id_inj hnd hdt hp hdid
          exact Or.inr (hdp ▸ hd1.1)
        · rw [if_neg h2] at he
          cases he
    · rintro ⟨p', hp', hcases⟩
      cases hp'
      rw [update_parent]
      by_cases h1 : p.id = category.id
      · exact ⟨_, by rw [if_pos h1]⟩
      · rcases hcases with rfl | hdesc
        · exact absurd rfl h1
        · have hne : (filter_descendants table category).filter
              (fun row => decide (row.id = p.id)) ≠ [] := by
            apply List.ne_nil_of_mem (a := p)
            exact List.mem_filter.mpr ⟨hdesc, by simp⟩
          exact ⟨_, by rw [if_neg h1, if_pos hne]⟩

theorem update_parent_cycle_error_iff_witness :
    ∃ e, update_parent
      [⟨1, none, [',']⟩, ⟨2, some 1, [',', '1', ',']⟩]
      ⟨1, none, [',']⟩ (some ⟨2, some 1, [',', '1', ',']⟩) = .error e :=
  (update_parent_cycle_error_iff
      [⟨1, none, [',']⟩, ⟨2, some 1, [',', '1', ',']⟩]
      ⟨1, none, [',']⟩ (some ⟨2, some 1, [',', '1', ',']⟩)
      (by decide) (by decide)
      (fun p hp => by cases hp; decide)).mpr
    ⟨⟨2, some 1, [',', '1', ',']⟩, rfl, Or.inr (by decide)⟩

/-! ### Claim C7: `filter_ancestors` (corrected) -/

/-- Claim C7, corrected: `ancestorsOf(C)` returns exactly the categories
whose ids appear in `C.lineage`, but in store (table/rowid) order — the
queryset has no `order_by` — not in the root-first order of the lineage
string. -/
theorem filter_ancestors_store_order (table : List ItemCategory)
    (category : ItemCategory) (L : List Nat)
    (hL : category.lineage = lin L) :
    filter_ancestors table category
      = table.filter (fun row => decide (row.id ∈ L)) := by
  unfold filter_ancestors
  apply List.filter_congr
  intro row _
  simp only [decide_eq_decide]
  rw [hL]
  exact searchStr_infix_iff

theorem filter_ancestors_store_order_witness :
    filter_ancestors
        [⟨1, some 2, [',', '2', ',']⟩, ⟨2, none, [',']⟩,
          ⟨3, some 1, [',', '2', ',', '1', ',']⟩]
        ⟨3, some 1, [',', '2', ',', '1', ',']⟩
      = List.filter (fun row => decide (row.id ∈ [2, 1]))
        [⟨1, some 2, [',', '2', ',']⟩, ⟨2, none, [',']⟩,
          ⟨3, some 1, [',', '2', ',', '1', ',']⟩] :=
  filter_ancestors_store_order _ _ [2, 1] (by decide)

/-- The table `A(1), B(2), C(3, child of A)` reparented so that `A` moves
under `B`: reachable via `update_parent`, after which the ancestors of `C`
come back in store order `[A, B]` (ids `[1, 2]`), not in the root-first
lineage order `[B, A]` (ids `[2, 1]`) claimed by the spec. -/
def tableC7 : List ItemCategory :=
  [⟨1, none, [',']⟩, ⟨2, none, [',']⟩, ⟨3, some 1, [',', '1', ',']⟩]

def tableC7' : List ItemCategory :=
  [⟨1, some 2, [',', '2', ',']⟩, ⟨2, none, [',']⟩,
    ⟨3, some 1, [',', '2', ',', '1', ',']⟩]

theorem filter_ancestors_not_lineage_ordered :
    update_parent tableC7 (tableC7.getD 0 dfltCat)
        (some (tableC7.getD 1 dfltCat)) = .ok tableC7' ∧
    (tableC7'.getD 2 dfltCat).lineage = lin [2, 1] ∧
    ((filter_ancestors tableC7' (tableC7'.getD 2 dfltCat)).map fun r => r.id)
      = [1, 2] ∧
    ((filter_ancestors tableC7' (tableC7'.getD 2 dfltCat)).map fun r => r.id)
      ≠ [2, 1] := by
  decide

/-! ### Claim C8: `ItemCategoryProperty.filter_relevant_for` (corrected) -/

/-- Claim C8, corrected: `propertiesVisibleTo(C)` returns exactly the
definitions owned by `C` or by a member of `ancestorsOf(C)` — an empty
result for a root category with no definitions — but in store (table) order,
not ancestors-root-first with `C`'s own definitions last. -/
theorem filter_relevant_for_store_order (props : List ItemCategoryProperty)
    (table : List ItemCategory) (category : ItemCategory) (L : List Nat)
    (hL : category.lineage = lin L)
    (htot : ∀ x ∈ L, ∃ row ∈ table, row.id = x) :
    icp_filter_relevant_for props category
      = props.filter (fun p =>
          decide ((∃ row ∈ filter_ancestors table category,
            row.id = p.category) ∨ p.category = category.id)) := by
  unfold icp_filter_relevant_for
  apply List.filter_congr
  intro p _
  simp only [decide_eq_decide]
  rw [hL, ← lin_snoc, searchStr_infix_iff]
  constructor
  · intro hmem
    rcases List.mem_append.mp hmem with hmem | hmem
    · left
      obtain ⟨row, hrow, hid⟩ := htot _ hmem
      refine ⟨row, ?_, hid⟩
      unfold filter_ancestors
      refine List.mem_filter.mpr ⟨hrow, ?_⟩
      simp only [decide_eq_true_eq]
      rw [hL, hid]
      exact searchStr_infix_iff.mpr hmem
    · right
      simpa using hmem
  · rintro (⟨row, hrow, hid⟩ | hid)
    · apply List.mem_append.mpr
      left
      have hpred := (List.mem_filter.mp hrow).2
      simp only [decide_eq_true_eq] at hpred
      rw [hL] at hpred
      rw [← hid]
      exact searchStr_infix_iff.mp hpred
    · apply List.mem_append.mpr
      right
      simp [hid]

theorem filter_relevant_for_store_order_witness :
    icp_filter_relevant_for [⟨10, "p", "IntegerField", 7⟩] ⟨1, none, [',']⟩
      = List.filter (fun p =>
          decide ((∃ row ∈ filter_ancestors [⟨1, none, [',']⟩] ⟨1, none, [',']⟩,
            row.id = p.category) ∨ p.category = 1))
        [⟨10, "p", "IntegerField", 7⟩] :=
  filter_relevant_for_store_order _ [⟨1, none, [',']⟩] _ [] (by decide)
    (by decide)

/-- Properties stored as `[own definition of C, definition of C's root
ancestor]`: `filter_relevant_for` returns them in that store order, not in
the claimed root-first-then-own order. -/
def propsC8 : List ItemCategoryProperty :=
  [⟨10, "own_prop", "IntegerField", 2⟩, ⟨11, "root_prop", "IntegerField", 1⟩]

theorem filter_relevant_for_not_root_first :
    icp_filter_relevant_for propsC8 ⟨2, some 1, [',', '1', ',']⟩
      = [⟨10, "own_prop", "IntegerField", 2⟩,
          ⟨11, "root_prop", "IntegerField", 1⟩] ∧
    icp_filter_relevant_for propsC8 ⟨2, some 1, [',', '1', ',']⟩
      ≠ [⟨11, "root_prop", "IntegerField", 1⟩,
          ⟨10, "own_prop", "IntegerField", 2⟩] := by
  decide

/-! ### Claim C6: the defined/obsolete partition -/

/-- Claim C6: for an item with a category, `definedValues(item)` and
`obsoleteValues(item)` partition the values attached to the item: together
they are a permutation of all of the item's `ItemPropertyValue` rows and no
row lies in both.  The statement quantifies over arbitrary value, property
and category state, so it holds after every sequence of category
reassignments and reparentings. -/
theorem defined_obsolete_partition (values : List ItemPropertyValue)
    (props : List ItemCategoryProperty) (item : Item)
    (dv ov : List ItemPropertyValue)
    (hdv : ipv_filter_relevant_for values props item = some dv)
    (hov : ipv_filter_obsolete_for values props item = some ov) :
    (dv ++ ov).Perm (values.filter (fun v => decide (v.item = item.id))) ∧
    dv.all (fun v => !(decide (v ∈ ov))) = true := by
  cases hcat : item.category with
  | none => simp [ipv_filter_relevant_for, hcat] at hdv
  | some cat =>
    simp only [ipv_filter_relevant_for, hcat] at hdv
    simp only [ipv_filter_obsolete_for, hcat] at hov
    injection hdv with hdv
    injection hov with hov
    constructor
    · rw [← hdv, ← hov]
      exact List.filter_append_perm _ _
    · rw [List.all_eq_true]
      intro v hv
      rw [← hdv] at hv
      have hp := (List.mem_filter.mp hv).2
      simp only [Bool.not_eq_true', decide_eq_false_iff_not]
      intro hmem
      rw [← hov] at hmem
      have hnp := (List.mem_filter.mp hmem).2
      rw [hp] at hnp
      cases hnp

theorem defined_obsolete_partition_witness :
    (([⟨1, ['2'], 2, 1⟩, ⟨2, ['2'], 2, 2⟩] ++ [⟨3, ['2'], 2, 3⟩]
        : List ItemPropertyValue).Perm
      (List.filter (fun v => decide (v.item = 2))
        [⟨1, ['2'], 2, 1⟩, ⟨2, ['2'], 2, 2⟩, ⟨3, ['2'], 2, 3⟩])) ∧
    List.all [⟨1, ['2'], 2, 1⟩, ⟨2, ['2'], 2, 2⟩]
      (fun v => !(decide (v ∈ ([⟨3, ['2'], 2, 3⟩]
        : List ItemPropertyValue)))) = true :=
  defined_obsolete_partition
    [⟨1, ['2'], 2, 1⟩, ⟨2, ['2'], 2, 2⟩, ⟨3, ['2'], 2, 3⟩]
    [⟨1, "A_prop", "IntegerField", 1⟩, ⟨2, "A_1_prop", "IntegerField", 2⟩,
      ⟨3, "A_1_1_prop", "IntegerField", 3⟩]
    ⟨2, "a_1_thing", 0, false, some ⟨2, some 1, [',', '1', ',']⟩⟩
    [⟨1, ['2'], 2, 1⟩, ⟨2, ['2'], 2, 2⟩] [⟨3, ['2'], 2, 3⟩]
    (by decide) (by decide)

/-! ### Claim C9: values of an item with a null category -/

/-- Claim C9: for an item whose category reference is null, both
`definedValues(item)` and `obsoleteValues(item)` fail while resolving
`category.lineage` (an `AttributeError` in the source, `none` here), so the
partition of C6 is not available for uncategorized items. -/
theorem null_category_values_raise (values : List ItemPropertyValue)
    (props : List ItemCategoryProperty) (item : Item)
    (h : item.category = none) :
    ipv_filter_relevant_for values props item = none ∧
    ipv_filter_obsolete_for values props item = none := by
  constructor <;>
    simp [ipv_filter_relevant_for, ipv_filter_obsolete_for, h]

theorem null_category_values_raise_witness :
    ipv_filter_relevant_for [⟨1, ['2'], 1, 1⟩]
      [⟨1, "A_prop", "IntegerField", 1⟩] ⟨1, "orphan", 0, false, none⟩ = none ∧
    ipv_filter_obsolete_for [⟨1, ['2'], 1, 1⟩]
      [⟨1, "A_prop", "IntegerField", 1⟩] ⟨1, "orphan", 0, false, none⟩ = none :=
  null_category_values_raise [⟨1, ['2'], 1, 1⟩]
    [⟨1, "A_prop", "IntegerField", 1⟩] ⟨1, "orphan", 0, false, none⟩ rfl

/-! ### Claim C10: typed (de)serialization round-trip -/

/-- Claim C10: `serialize` always stores `str(object)` regardless of the
declared kind, and for every supported kind and every value of that kind
whose canonical text form parses back to itself under that kind,
`deserialize` after `serialize` returns the original value. -/
theorem serialize_deserialize_roundtrip (property_type : String) (v : PyVal)
    (pv : PropertyValue) (_hkind : kindOf v = property_type)
    (hparse : to_python property_type (pyStrOf v) = some v) :
    (pv.serialize v).value = pyStrOf v ∧
    PropertyValue.deserialize property_type (pv.serialize v) = some v :=
  ⟨rfl, hparse⟩

theorem serialize_deserialize_roundtrip_witness :
    (PropertyValue.deserialize "IntegerField"
      ((⟨[]⟩ : PropertyValue).serialize (.pyInt 1)) = some (.pyInt 1)) ∧
    (PropertyValue.deserialize "FloatField"
      ((⟨[]⟩ : PropertyValue).serialize (.pyFloat 0 [5]))
        = some (.pyFloat 0 [5])) ∧
    (PropertyValue.deserialize "BooleanField"
      ((⟨[]⟩ : PropertyValue).serialize (.pyBool true)) = some (.pyBool true)) ∧
    (PropertyValue.deserialize "TextField"
      ((⟨[]⟩ : PropertyValue).serialize (.pyText "Hello sir!".data))
        = some (.pyText "Hello sir!".data)) ∧
    (PropertyValue.deserialize "DateField"
      ((⟨[]⟩ : PropertyValue).serialize (.pyDate 1918 11 11))
        = some (.pyDate 1918 11 11)) :=
  ⟨(serialize_deserialize_roundtrip "IntegerField" (.pyInt 1) ⟨[]⟩ rfl
      (by decide)).2,
    (serialize_deserialize_roundtrip "FloatField" (.pyFloat 0 [5]) ⟨[]⟩ rfl
      (by decide)).2,
    (serialize_deserialize_roundtrip "BooleanField" (.pyBool true) ⟨[]⟩ rfl
      (by decide)).2,
    (serialize_deserialize_roundtrip "TextField" (.pyText "Hello sir!".data)
      ⟨[]⟩ rfl (by decide)).2,
    (serialize_deserialize_roundtrip "DateField" (.pyDate 1918 11 11) ⟨[]⟩ rfl
      (by decide)).2⟩

/-! ### Claim C5: over-booking yields a negative result -/

/-- Claim C5: with `item.amount = 5` and two overlapping reservations of 3
units each over `[day1, day3]` and `[day2, day4]`,
`availableAmount(item, day1, day4)` returns exactly `-1`: the negative
result is returned to the caller, not clamped to zero or turned into an
error. -/
theorem available_amount_overbooked_negative :
    get_available_amount [⟨1, 1, 3⟩, ⟨2, 2, 4⟩] [⟨3, 1, 1⟩, ⟨3, 1, 2⟩]
      ⟨1, "thing", 5, false, none⟩ 1 4 = -1 := by
  decide


/-! ### Stability of the event sort and the sweep bound -/

lemma filter_key_orderedInsert (t : Int) (a : Int × Int)
    (l : List (Int × Int)) :
    (List.orderedInsert poiLE a l).filter (fun e => decide (e.1 = t))
      = if a.1 = t then a :: l.filter (fun e => decide (e.1 = t))
        else l.filter (fun e => decide (e.1 = t)) := by
  induction l with
  | nil => by_cases h : a.1 = t <;> simp [List.orderedInsert, h]
  | cons b l ih =>
    by_cases hr : poiLE a b
    · rw [List.orderedInsert_of_le poiLE _ hr]
      by_cases ha : a.1 = t <;> simp [List.filter_cons, ha]
    · have hstep : List.orderedInsert poiLE a (b :: l)
          = b :: List.orderedInsert poiLE a l := by
        simp [List.orderedInsert, hr]
      rw [hstep]
      by_cases ha : a.1 = t
      · have hb : ¬ b.1 = t := by
          simp only [poiLE, not_le] at hr
          omega
        simp [List.filter_cons, ha, hb, ih]
      · by_cases hb : b.1 = t <;> simp [List.filter_cons, ih, ha, hb]

lemma filter_key_insertionSort (t : Int) (l : List (Int × Int)) :
    (List.insertionSort poiLE l).filter (fun e => decide (e.1 = t))
      = l.filter (fun e => decide (e.1 = t)) := by
  induction l with
  | nil => rfl
  | cons a l ih =>
    rw [List.insertionSort, filter_key_orderedInsert]
    by_cases ha : a.1 = t <;> simp [List.filter_cons, ha, ih]

lemma sumD_cons (p : Int × Int) (l : List (Int × Int)) :
    sumD (p :: l) = p.2 + sumD l := by
  simp [sumD]

lemma sumD_append (l1 l2 : List (Int × Int)) :
    sumD (l1 ++ l2) = sumD l1 + sumD l2 := by
  simp [sumD]

lemma sumD_perm {l1 l2 : List (Int × Int)} (h : l1.Perm l2) :
    sumD l1 = sumD l2 :=
  (h.map _).sum_eq

lemma sumD_flatten_map {α : Type} (f : α → List (Int × Int)) (l : List α) :
    sumD ((l.map f).flatten) = (l.map (fun u => sumD (f u))).sum := by
  induction l with
  | nil => rfl
  | cons a l ih =>
    simp only [List.map_cons, List.flatten_cons, List.sum_cons, sumD_append, ih]

lemma filter_flatten_eq (p : (Int × Int) → Bool)
    (L : List (List (Int × Int))) :
    L.flatten.filter p = (L.map (fun l => l.filter p)).flatten := by
  induction L with
  | nil => rfl
  | cons a L ih => simp [List.filter_append, ih]

lemma sum_map_add {α : Type} (l : List α) (f g : α → Int) :
    (l.map (fun u => f u + g u)).sum = (l.map f).sum + (l.map g).sum := by
  induction l with
  | nil => rfl
  | cons a l ih => simp [ih]; omega

lemma sweep_fst (l : List (Int × Int)) (st : Int × Int) :
    (l.foldl sweepStep st).1 = st.1 - sumD l := by
  induction l generalizing st with
  | nil => simp [sumD]
  | cons p l ih =>
    rw [List.foldl_cons, ih, sumD_cons]
    simp only [sweepStep]
    omega

lemma sweep_snd_le (l : List (Int × Int)) (st : Int × Int) :
    (l.foldl sweepStep st).2 ≤ st.2 := by
  induction l generalizing st with
  | nil => simp
  | cons p l ih =>
    rw [List.foldl_cons]
    refine le_trans (ih _) ?_
    simp only [sweepStep]
    omega

/-- The running minimum of the sweep is at most the storage level reached
right after any single event. -/
lemma sweep_min_le (a : Int) (P : List (Int × Int)) (p : Int × Int)
    (R : List (Int × Int)) :
    ((P ++ p :: R).foldl sweepStep (a, a)).2 ≤ a - sumD P - p.2 := by
  rw [List.foldl_append, List.foldl_cons]
  refine le_trans (sweep_snd_le _ _) ?_
  have h1 : (List.foldl sweepStep (a, a) P).1 = a - sumD P := by
    rw [sweep_fst]
  simp only [sweepStep]
  omega

/-- Per-reservation bounds on the filtered event blocks: the events of a
reservation with `start ≤ end` and nonnegative quantity sum to a
nonnegative value when restricted to times `< t`, and also when restricted
to times `≤ t`. -/
lemma block_filter_nonneg (t s e qu : Int) (hse : s ≤ e) (hq : 0 ≤ qu) :
    0 ≤ sumD (([(s, qu), (e, -qu)] : List (Int × Int)).filter
        (fun x => decide (x.1 < t))) ∧
    0 ≤ sumD (([(s, qu), (e, -qu)] : List (Int × Int)).filter
        (fun x => decide (x.1 < t)))
      + sumD (([(s, qu), (e, -qu)] : List (Int × Int)).filter
        (fun x => decide (x.1 = t))) := by
  by_cases h1 : s < t <;> by_cases h2 : e < t <;> by_cases h3 : s = t <;>
    by_cases h4 : e = t <;>
      simp [List.filter_cons, h1, h2, h3, h4, sumD] <;> omega

/-- A list sorted by key splits as the elements satisfying a downward-closed
predicate followed by the rest. -/
lemma sorted_filter_append (p : (Int × Int) → Bool) :
    ∀ l : List (Int × Int), l.Sorted poiLE →
      (∀ a ∈ l, ∀ b ∈ l, poiLE a b → p b = true → p a = true) →
      l.filter p ++ l.filter (fun x => !(p x)) = l := by
  intro l
  induction l with
  | nil => intro _ _; rfl
  | cons a l ih =>
    intro hs hdc
    have hrel := List.rel_of_sorted_cons hs
    have hs' := hs.of_cons
    by_cases hpa : p a = true
    · rw [List.filter_cons_of_pos hpa, List.filter_cons_of_neg (by simp [hpa]),
        List.cons_append]
      rw [ih hs' (fun x hx y hy => hdc x (List.mem_cons_of_mem a hx)
        y (List.mem_cons_of_mem a hy))]
    · have hnone : ∀ b ∈ l, p b = false := by
        intro b hb
        cases hpb : p b
        · rfl
        · exact absurd (hdc a (List.mem_cons_self a l) b
            (List.mem_cons_of_mem a hb) (hrel b hb) hpb) hpa
      rw [List.filter_cons_of_neg (by simp [hpa]),
        List.filter_cons_of_pos (by simp [hpa])]
      have h1 : l.filter p = [] := by
        rw [List.filter_eq_nil_iff]
        intro b hb
        simp [hnone b hb]
      have h2 : l.filter (fun x => !(p x)) = l := by
        rw [List.filter_eq_self]
        intro b hb
        simp [hnone b hb]
      rw [h1, h2, List.nil_append]

/-- A sorted event list is the concatenation of its events before `t`, at
`t`, and after `t`. -/
lemma sorted_split_three (t : Int) (l : List (Int × Int))
    (hl : l.Sorted poiLE) :
    l = l.filter (fun e => decide (e.1 < t))
        ++ l.filter (fun e => decide (e.1 = t))
        ++ l.filter (fun e => decide (t < e.1)) := by
  have hdc1 : ∀ a ∈ l, ∀ b ∈ l, poiLE a b →
      decide (b.1 < t) = true → decide (a.1 < t) = true := by
    intro a _ b _ hab hb
    simp only [decide_eq_true_eq] at hb ⊢
    have h3 : a.1 ≤ b.1 := hab
    omega
  have h1 := sorted_filter_append (fun e => decide (e.1 < t)) l hl hdc1
  have hrs : (l.filter (fun x => !(decide (x.1 < t)))).Sorted poiLE :=
    hl.filter _
  have hmem : ∀ x ∈ l.filter (fun x => !(decide (x.1 < t))), ¬ x.1 < t := by
    intro x hx
    have := (List.mem_filter.mp hx).2
    simpa using this
  have hdc2 : ∀ a ∈ l.filter (fun x => !(decide (x.1 < t))),
      ∀ b ∈ l.filter (fun x => !(decide (x.1 < t))), poiLE a b →
      decide (b.1 = t) = true → decide (a.1 = t) = true := by
    intro a ha b _ hab hb
    simp only [decide_eq_true_eq] at hb ⊢
    have h3 : a.1 ≤ b.1 := hab
    have h4 := hmem a ha
    omega
  have h2 := sorted_filter_append (fun e => decide (e.1 = t)) _ hrs hdc2
  have e1 : (l.filter (fun x => !(decide (x.1 < t)))).filter
      (fun e => decide (e.1 = t)) = l.filter (fun e => decide (e.1 = t)) := by
    rw [List.filter_filter]
    apply List.filter_congr
    intro x _
    by_cases hx : x.1 = t
    · have hx2 : ¬ x.1 < t := by omega
      simp [hx, hx2]
    · simp [hx]
  have e2 : (l.filter (fun x => !(decide (x.1 < t)))).filter
      (fun x => !(decide (x.1 = t))) = l.filter (fun e => decide (t < e.1)) := by
    rw [List.filter_filter]
    apply List.filter_congr
    intro x _
    by_cases h6 : x.1 = t
    · have h8 : ¬ t < x.1 := by omega
      simp [h6, h8]
    · by_cases h7 : x.1 < t
      · have h8 : ¬ t < x.1 := by omega
        simp [h6, h7, h8]
      · have h8 : t < x.1 := by omega
        simp [h6, h7, h8]
  conv_lhs => rw [← h1]
  rw [← h2, e1, e2, List.append_assoc]


/-- The core bound behind claim C4: if the colliding list contains a
zero-length reservation of quantity `q`, the sweep's final minimum is at
most `A - q`, provided every colliding reservation has `start ≤ end` and a
nonnegative quantity. -/
lemma sweep_zero_length_le (A : Int) (D1 D2 : List (Rent × Int)) (r : Rent)
    (q : Int) (hzero : r.start = r.end_)
    (helem : ∀ u ∈ D1 ++ (r, q) :: D2, u.1.start ≤ u.1.end_ ∧ 0 ≤ u.2) :
    ((List.insertionSort poiLE
        (points_of_interest_of (D1 ++ (r, q) :: D2))).foldl
      sweepStep (A, A)).2 ≤ A - q := by
  have hsort : (List.insertionSort poiLE
      (points_of_interest_of (D1 ++ (r, q) :: D2))).Sorted poiLE :=
    List.sorted_insertionSort poiLE _
  have h3 := sorted_split_three r.start _ hsort
  -- the events at the zero-length rent's instant, by stability and the
  -- block structure of `points_of_interest_of`
  have hfe : (List.insertionSort poiLE
        (points_of_interest_of (D1 ++ (r, q) :: D2))).filter
        (fun e => decide (e.1 = r.start))
      = ((D1 ++ (r, q) :: D2).map
          (fun ra => (eventBlock ra).filter
            (fun e => decide (e.1 = r.start)))).flatten := by
    rw [filter_key_insertionSort, points_of_interest_of, filter_flatten_eq,
      List.map_map]
    rfl
  have hmid : (eventBlock (r, q)).filter (fun e => decide (e.1 = r.start))
      = [(r.start, q), (r.start, -q)] := by
    rw [eventBlock]
    dsimp only
    rw [← hzero]
    simp
  have hfemid : ((D1 ++ (r, q) :: D2).map
        (fun ra => (eventBlock ra).filter
          (fun e => decide (e.1 = r.start)))).flatten
      = (D1.map (fun ra => (eventBlock ra).filter
          (fun e => decide (e.1 = r.start)))).flatten
        ++ (r.start, q) :: (r.start, -q)
        :: (D2.map (fun ra => (eventBlock ra).filter
          (fun e => decide (e.1 = r.start)))).flatten := by
    rw [List.map_append, List.map_cons, List.flatten_append, List.flatten_cons,
      hmid]
    simp [List.append_assoc]
  have hdecomp : List.insertionSort poiLE
        (points_of_interest_of (D1 ++ (r, q) :: D2))
      = ((List.insertionSort poiLE
            (points_of_interest_of (D1 ++ (r, q) :: D2))).filter
            (fun e => decide (e.1 < r.start))
          ++ (D1.map (fun ra => (eventBlock ra).filter
              (fun e => decide (e.1 = r.start)))).flatten)
        ++ (r.start, q) :: ((r.start, -q)
          :: ((D2.map (fun ra => (eventBlock ra).filter
              (fun e => decide (e.1 = r.start)))).flatten
            ++ (List.insertionSort poiLE
                (points_of_interest_of (D1 ++ (r, q) :: D2))).filter
              (fun e => decide (r.start < e.1)))) := by
    conv_lhs => rw [h3]
    rw [hfe, hfemid]
    simp [List.append_assoc]
  have hbound := sweep_min_le A
    ((List.insertionSort poiLE
        (points_of_interest_of (D1 ++ (r, q) :: D2))).filter
        (fun e => decide (e.1 < r.start))
      ++ (D1.map (fun ra => (eventBlock ra).filter
          (fun e => decide (e.1 = r.start)))).flatten)
    (r.start, q)
    ((r.start, -q)
      :: ((D2.map (fun ra => (eventBlock ra).filter
          (fun e => decide (e.1 = r.start)))).flatten
        ++ (List.insertionSort poiLE
            (points_of_interest_of (D1 ++ (r, q) :: D2))).filter
          (fun e => decide (r.start < e.1))))
  rw [← hdecomp] at hbound
  -- nonnegativity of the prefix sum
  have hsl : sumD ((List.insertionSort poiLE
        (points_of_interest_of (D1 ++ (r, q) :: D2))).filter
        (fun e => decide (e.1 < r.start)))
      = sumD ((points_of_interest_of (D1 ++ (r, q) :: D2)).filter
        (fun e => decide (e.1 < r.start))) :=
    sumD_perm ((List.perm_insertionSort poiLE _).filter _)
  have hplt : sumD ((points_of_interest_of (D1 ++ (r, q) :: D2)).filter
        (fun e => decide (e.1 < r.start)))
      = ((D1 ++ (r, q) :: D2).map
          (fun u => sumD ((eventBlock u).filter
            (fun e => decide (e.1 < r.start))))).sum := by
    rw [points_of_interest_of, filter_flatten_eq, List.map_map,
      sumD_flatten_map]
    rfl
  have hmidlt : (eventBlock (r, q)).filter (fun e => decide (e.1 < r.start))
      = [] := by
    rw [eventBlock]
    dsimp only
    rw [← hzero]
    simp
  have hm1 : sumD ((D1.map (fun ra => (eventBlock ra).filter
        (fun e => decide (e.1 = r.start)))).flatten)
      = (D1.map (fun u => sumD ((eventBlock u).filter
          (fun e => decide (e.1 = r.start))))).sum :=
    sumD_flatten_map _ _
  have hg1 : 0 ≤ (D1.map (fun u => sumD ((eventBlock u).filter
        (fun e => decide (e.1 < r.start))))).sum
      + (D1.map (fun u => sumD ((eventBlock u).filter
        (fun e => decide (e.1 = r.start))))).sum := by
    rw [← sum_map_add]
    apply List.sum_nonneg
    intro x hx
    obtain ⟨u, hu, rfl⟩ := List.mem_map.mp hx
    have he := helem u (List.mem_append.mpr (Or.inl hu))
    have hb := (block_filter_nonneg r.start u.1.start u.1.end_ u.2
      he.1 he.2).2
    rw [eventBlock]
    exact hb
  have hg2 : 0 ≤ (D2.map (fun u => sumD ((eventBlock u).filter
        (fun e => decide (e.1 < r.start))))).sum := by
    apply List.sum_nonneg
    intro x hx
    obtain ⟨u, hu, rfl⟩ := List.mem_map.mp hx
    have he := helem u (List.mem_append.mpr (Or.inr (List.mem_cons_of_mem _ hu)))
    have hb := (block_filter_nonneg r.start u.1.start u.1.end_ u.2
      he.1 he.2).1
    rw [eventBlock]
    exact hb
  have hsplitsum : ((D1 ++ (r, q) :: D2).map
        (fun u => sumD ((eventBlock u).filter
          (fun e => decide (e.1 < r.start))))).sum
      = (D1.map (fun u => sumD ((eventBlock u).filter
          (fun e => decide (e.1 < r.start))))).sum
        + (sumD ((eventBlock (r, q)).filter
            (fun e => decide (e.1 < r.start)))
          + (D2.map (fun u => sumD ((eventBlock u).filter
            (fun e => decide (e.1 < r.start))))).sum) := by
    rw [List.map_append, List.sum_append, List.map_cons, List.sum_cons]
  rw [sumD_append, hsl, hplt, hsplitsum, hmidlt, hm1] at hbound
  have hz : sumD ([] : List (Int × Int)) = 0 := rfl
  rw [hz] at hbound
  omega


/-! ### Claim C3: tie handling in the availability sweep (corrected) -/

/-- Claim C3, corrected: coinciding events are not netted before the minimum
is sampled.  The sort is stable, so events at the same instant are applied
one at a time in reservation fetch order, with the running minimum sampled
after each application; the events of a single reservation keep their
start-before-end emission order, but the sampled minimum — and hence the
result — can depend on the fetch order when a `+q` and a `-q` from
different reservations coincide. -/
theorem sweep_ties_apply_in_fetch_order (l : List (Int × Int)) (t : Int) :
    (List.insertionSort poiLE l).filter (fun e => decide (e.1 = t))
      = l.filter (fun e => decide (e.1 = t)) :=
  filter_key_insertionSort t l

/-- Counterexample to claim C3 as stated: `item.amount = 5`, one reservation
of 3 units over `[1, 2]` and one of 3 units over `[2, 4]`.  If coinciding
events were netted before sampling the minimum, the result would be `2`
regardless of fetch order; instead the two fetch orders give `2` and `-1`. -/
theorem available_amount_tie_order_dependent :
    get_available_amount [⟨1, 1, 2⟩, ⟨2, 2, 4⟩] [⟨3, 1, 1⟩, ⟨3, 1, 2⟩]
      ⟨1, "thing", 5, false, none⟩ 1 4 = 2 ∧
    get_available_amount [⟨2, 2, 4⟩, ⟨1, 1, 2⟩] [⟨3, 1, 1⟩, ⟨3, 1, 2⟩]
      ⟨1, "thing", 5, false, none⟩ 1 4 = -1 := by
  decide

/-! ### Claim C4: zero-length reservations still count -/

/-- Claim C4: for an item with positive stock and a zero-length reservation
(`start = end`) of quantity `q` overlapping the query window (where `q` is
the reservation's annotated total for the item), `get_available_amount` is
at most `item.amount - q`: the `+q` and `-q` events at the same instant
decrement the sampled minimum rather than cancelling out.  The store-level
constraints appear as hypotheses: every rent has `start ≤ end`
(`start_lte_end`) and every rent item has a positive amount
(`rent_amount_gt_0`). -/
theorem available_amount_zero_length_counts
    (rents : List Rent) (rentItems : List RentItem) (item : Item)
    (start end_ : Int) (r : Rent)
    (hr : r ∈ rents) (hzero : r.start = r.end_)
    (hov1 : r.start ≤ end_) (hov2 : start ≤ r.end_)
    (hlink : ∃ ri ∈ rentItems, ri.rent = r.id ∧ ri.item = item.id)
    (hpos : 0 < item.amount)
    (hse : ∀ s ∈ rents, s.start ≤ s.end_)
    (hria : ∀ ri ∈ rentItems, 0 < ri.amount) :
    get_available_amount rents rentItems item start end_
      ≤ item.amount - rentAmountFor rentItems item r := by
  have hrfilter : r ∈ rents.filter (fun r' =>
      decide (r'.start ≤ end_ ∧ start ≤ r'.end_) &&
      rentItems.any (fun ri => decide (ri.rent = r'.id ∧ ri.item = item.id))) := by
    refine List.mem_filter.mpr ⟨hr, ?_⟩
    rw [Bool.and_eq_true]
    refine ⟨by simp only [decide_eq_true_eq]; exact ⟨hov1, hov2⟩, ?_⟩
    rw [List.any_eq_true]
    obtain ⟨ri, hri1, hri2⟩ := hlink
    exact ⟨ri, hri1, by simp only [decide_eq_true_eq]; exact hri2⟩
  have hrC : (r, rentAmountFor rentItems item r)
      ∈ coliding_rents_for rents rentItems item start end_ := by
    rw [coliding_rents_for]
    exact List.mem_map.mpr ⟨r, hrfilter, rfl⟩
  have hne : coliding_rents_for rents rentItems item start end_ ≠ [] :=
    List.ne_nil_of_mem hrC
  obtain ⟨D1, D2, hsplitC⟩ := List.append_of_mem hrC
  have helem : ∀ u ∈ D1 ++ (r, rentAmountFor rentItems item r) :: D2,
      u.1.start ≤ u.1.end_ ∧ 0 ≤ u.2 := by
    intro u hu
    rw [← hsplitC, coliding_rents_for] at hu
    obtain ⟨s, hs, rfl⟩ := List.mem_map.mp hu
    refine ⟨hse s (List.mem_filter.mp hs).1, ?_⟩
    show 0 ≤ rentAmountFor rentItems item s
    rw [rentAmountFor]
    apply List.sum_nonneg
    intro x hx
    obtain ⟨ri, hri, rfl⟩ := List.mem_map.mp hx
    exact le_of_lt (hria ri (List.mem_filter.mp hri).1)
  rw [get_available_amount, if_neg (by omega), if_neg hne, hsplitC]
  exact sweep_zero_length_le item.amount D1 D2 r
    (rentAmountFor rentItems item r) hzero helem

theorem available_amount_zero_length_counts_witness :
    get_available_amount [⟨1, 2, 2⟩] [⟨3, 1, 1⟩] ⟨1, "thing", 5, false, none⟩
        1 4
      ≤ 5 - rentAmountFor [⟨3, 1, 1⟩] ⟨1, "thing", 5, false, none⟩ ⟨1, 2, 2⟩ :=
  available_amount_zero_length_counts [⟨1, 2, 2⟩] [⟨3, 1, 1⟩]
    ⟨1, "thing", 5, false, none⟩ 1 4 ⟨1, 2, 2⟩ (by decide) rfl (by decide)
    (by decide) ⟨⟨3, 1, 1⟩, by decide, by decide⟩ (by decide) (by decide)
    (by decide)


/-! ### Claim C1: descendant lineage rewriting by `update_parent` -/

/-- The descendant rewrite of `applyReparent`: under the lineage invariants,
a row whose lineage contains `",category.id,"` has, before the move, the
lineage `category.lineage ++ str(category.id) ++ ","` followed by its own
deeper suffix, and after the move the prefix is replaced by
`new_lineage ++ str(category.id) ++ ","` with the suffix preserved. -/
lemma applyReparent_descendant
    (table : List ItemCategory) (toks : List (List Nat))
    (hInv : TreeInv table toks) (category : ItemCategory)
    (hmem : category ∈ table)
    (npid : Option Nat) (nlin : List Char)
    (i : Nat) (hi : i < table.length)
    (hinf : searchStr category.id <:+: (table.getD i dfltCat).lineage) :
    (table.getD i dfltCat).lineage
      = category.lineage ++ natStr category.id ++ [',']
        ++ (table.getD i dfltCat).lineage.drop
          (category.lineage.length + (natStr category.id).length + 1) ∧
    ((applyReparent table category npid nlin).getD i dfltCat).lineage
      = nlin ++ natStr category.id ++ [',']
        ++ (table.getD i dfltCat).lineage.drop
          (category.lineage.length + (natStr category.id).length + 1) := by
  obtain ⟨hnd, hlentab, hrows⟩ := hInv
  obtain ⟨hlin, hndL, hnotin, hclose⟩ := hrows i hi
  -- locate the unique token `category.id` in the row's ancestor list
  rw [hlin] at hinf
  obtain ⟨s, t2, hst⟩ := hinf
  have hpre : searchStr category.id
      <+: (lin (toks.getD i [])).drop s.length := by
    rw [← hst, show s ++ searchStr category.id ++ t2
      = s ++ (searchStr category.id ++ t2) by simp, List.drop_left]
    exact ⟨t2, rfl⟩
  obtain ⟨k, hk, hkid, -⟩ := searchStr_prefix_drop hpre
  -- the prefix of the ancestor list up to the token is `category`'s lineage
  obtain ⟨j, hj, hjid, hjlin⟩ := hclose k hk
  have hrowj : table.getD j dfltCat ∈ table := by
    rw [List.getD_eq_getElem table dfltCat hj]
    exact List.getElem_mem hj
  have hgetD : (toks.getD i []).getD k 0 = category.id := by
    rw [List.getD_eq_getElem _ _ hk, ← List.get_eq_getElem _ ⟨k, hk⟩, hkid]
  have hjc : table.getD j dfltCat = category :=
    table_id_inj hnd hrowj hmem (by rw [hjid, hgetD])
  have hclin : category.lineage = lin ((toks.getD i []).take k) := by
    rw [← hjc]
    exact hjlin
  -- the row is not the moved category itself
  have hne : ¬ (table.getD i dfltCat).id = category.id := by
    intro heq
    apply hnotin
    rw [heq, ← hkid]
    exact List.get_mem _ k hk
  -- first-occurrence position of the search pattern
  have hsi : strIndex (lin (toks.getD i [])) (searchStr category.id)
      = (linTail ((toks.getD i []).take k)).length + 1 :=
    strIndex_lineage hndL hk hkid
  -- decompose the row's lineage around the token
  have hLdec : toks.getD i []
      = (toks.getD i []).take k ++ category.id :: (toks.getD i []).drop (k + 1) := by
    have hk2 : (toks.getD i [])[k] = category.id := by
      rw [← List.get_eq_getElem _ ⟨k, hk⟩]
      exact hkid
    conv_lhs => rw [← List.take_append_drop k (toks.getD i []),
      List.drop_eq_getElem_cons hk, hk2]
  have hlinL : lin (toks.getD i [])
      = lin ((toks.getD i []).take k) ++ natStr category.id
        ++ ',' :: linTail ((toks.getD i []).drop (k + 1)) := by
    conv_lhs => rw [hLdec]
    rw [lin_split]
  have hdrop : (table.getD i dfltCat).lineage.drop
        (category.lineage.length + (natStr category.id).length + 1)
      = linTail ((toks.getD i []).drop (k + 1)) := by
    rw [hlin, hclin]
    conv_lhs => rw [hlinL]
    rw [show lin ((toks.getD i []).take k) ++ natStr category.id
        ++ ',' :: linTail ((toks.getD i []).drop (k + 1))
      = (lin ((toks.getD i []).take k) ++ natStr category.id ++ [','])
        ++ linTail ((toks.getD i []).drop (k + 1)) by simp]
    rw [show (lin ((toks.getD i []).take k)).length
          + (natStr category.id).length + 1
        = (lin ((toks.getD i []).take k) ++ natStr category.id
          ++ [',']).length by simp; omega]
    rw [List.drop_left]
  constructor
  · rw [hdrop, hlin, hclin]
    conv_lhs => rw [hlinL]
    simp
  · have hgd : ∀ (f : ItemCategory → ItemCategory) (l : List ItemCategory),
        i < l.length → (l.map f).getD i dfltCat = f (l.getD i dfltCat) := by
      intro f l hl
      rw [List.getD_eq_getElem l dfltCat hl,
        List.getD_eq_getElem (l.map f) dfltCat (by simpa using hl),
        List.getElem_map]
    simp only [applyReparent]
    rw [hgd _ _ (by simpa using hi), hgd _ _ hi]
    rw [if_neg hne]
    have hinf2 : searchStr category.id <:+: (table.getD i dfltCat).lineage := by
      rw [hlin, ← hst]
      exact ⟨s, t2, rfl⟩
    rw [if_pos hinf2]
    dsimp only
    have hidx : strIndex (table.getD i dfltCat).lineage (searchStr category.id)
          + (searchStr category.id).length - 1
        = category.lineage.length + (natStr category.id).length + 1 := by
      rw [hlin, hsi, searchStr_length, hclin, lin_length]
      omega
    rw [hidx, hdrop]

/-- Claim C1: after a successful `reparent(category, newParent)`, every row
that was a descendant of `category` before the move (its lineage contains
`",category.id,"`) has its lineage rewritten to
`newLineage ++ category.id ++ ","` followed by its original suffix past
`category` (the part after the old prefix
`category.lineage ++ category.id ++ ","`), for every table satisfying the
lineage invariants before the call. -/
theorem reparent_rewrites_descendant_lineages
    (table table' : List ItemCategory) (toks : List (List Nat))
    (category : ItemCategory) (new_parent : Option ItemCategory)
    (hInv : TreeInv table toks) (hmem : category ∈ table)
    (hok : update_parent table category new_parent = .ok table')
    (i : Nat) (hi : i < table.length)
    (hdesc : table.getD i dfltCat ∈ filter_descendants table category) :
    (table.getD i dfltCat).lineage
      = category.lineage ++ natStr category.id ++ [',']
        ++ (table.getD i dfltCat).lineage.drop
          (category.lineage.length + (natStr category.id).length + 1) ∧
    (table'.getD i dfltCat).lineage
      = new_lineage_of new_parent ++ natStr category.id ++ [',']
        ++ (table.getD i dfltCat).lineage.drop
          (category.lineage.length + (natStr category.id).length + 1) := by
  have hinf : searchStr category.id <:+: (table.getD i dfltCat).lineage := by
    have hpred := (List.mem_filter.mp hdesc).2
    simpa using hpred
  have htab : ∃ npid,
      table' = applyReparent table category npid (new_lineage_of new_parent) := by
    cases new_parent with
    | none =>
      rw [update_parent] at hok
      injection hok with h
      exact ⟨none, h.symm⟩
    | some p =>
      rw [update_parent] at hok
      by_cases h1 : p.id = category.id
      · rw [if_pos h1] at hok
        cases hok
      · rw [if_neg h1] at hok
        by_cases h2 : (filter_descendants table category).filter
            (fun row => decide (row.id = p.id)) ≠ []
        · rw [if_pos h2] at hok
          cases hok
        · rw [if_neg h2] at hok
          injection hok with h
          exact ⟨some p.id, h.symm⟩
  obtain ⟨npid, htab'⟩ := htab
  rw [htab']
  exact applyReparent_descendant table toks hInv category hmem npid _ i hi hinf

theorem reparent_rewrites_descendant_lineages_witness :
    (([',', '1', ','] : List Char)
      = [','] ++ natStr 1 ++ [','] ++ ([',', '1', ','] : List Char).drop 3) ∧
    (([',', '2', ',', '1', ','] : List Char)
      = new_lineage_of (some ⟨2, none, [',']⟩) ++ natStr 1 ++ [',']
        ++ ([',', '1', ','] : List Char).drop 3) :=
  reparent_rewrites_descendant_lineages
    [⟨1, none, [',']⟩, ⟨2, none, [',']⟩, ⟨3, some 1, [',', '1', ',']⟩]
    [⟨1, some 2, [',', '2', ',']⟩, ⟨2, none, [',']⟩,
      ⟨3, some 1, [',', '2', ',', '1', ',']⟩]
    [[], [], [1]] ⟨1, none, [',']⟩ (some ⟨2, none, [',']⟩)
    (by decide) (by decide) (by decide) 2 (by decide) (by decide)

end Openrits
